import Mathlib

/-!
Verification development for the streaming tool-call extractor and related
utilities of the `agent-starter-python` repository.

The Python sources are shallowly embedded as executable Lean definitions:

* `processFunctionCall`  — `utils/gemma_processor.py`, `process_function_call`
* `gemmaLoop` / `processGemmaChat` — `utils/gemma_processor.py`,
  the streaming loop of `process_gemma_chat` (lines 305-501)
* `mistralStep` / `mistralRun` — `utils/mistral_processor.py`,
  the streaming filter of `process_mistral_chat` (lines 216-277)
* `serializeOllamaMsg` / `ollamaMessages` — `utils/ollama_processor.py`,
  the chat-context serialization loop of `process_ollama_chat` (lines 28-91)
* `normalize_collection_name` — `utils/tools.py`, `normalize_collection_name`

Strings are modelled as `List Char`.  External collaborators (the model
backend, the Qdrant capability, base64 encoding of raw image bytes) are
modelled as function parameters, mirroring the spec's capability-registry and
backend contracts.  Backend streams are modelled as a list of fragments plus a
flag saying whether the stream raises after delivering them (an exception at
an earlier point is the same model with the fragment list truncated).
-/

/-! ## Basic character and string utilities (Python `str` operations) -/

/-- Python `\s` whitespace characters (ASCII range, as used by `re.sub(r'\s+', ' ', ...)`
and `str.strip`). -/
def isWsChar (c : Char) : Bool :=
  c == ' ' || c == '\t' || c == '\n' || c == '\r' || c == '\x0b' || c == '\x0c'

/-- Python `str.strip()`: drop whitespace from both ends. -/
def pyStrip (l : List Char) : List Char :=
  ((l.dropWhile isWsChar).reverse.dropWhile isWsChar).reverse

/-- Python `re.sub(r'\s+', ' ', s)`, run-tracking helper: `prevWs` records
whether the previous character belonged to a whitespace run already replaced. -/
def collapseWsAux : Bool → List Char → List Char
  | _, [] => []
  | prevWs, c :: rest =>
    if isWsChar c then
      (if prevWs then collapseWsAux true rest else ' ' :: collapseWsAux true rest)
    else c :: collapseWsAux false rest

/-- Python `re.sub(r'\s+', ' ', s)`: replace every maximal whitespace run by a
single space. -/
def collapseWs (l : List Char) : List Char :=
  collapseWsAux false l

/-- `p` is a prefix of `l` (Boolean, Python `str.startswith`). -/
def listStartsWith : List Char → List Char → Bool
  | [], _ => true
  | _ :: _, [] => false
  | p :: ps, c :: cs => p == c && listStartsWith ps cs

/-- `p` occurs as a contiguous substring of `l` (Python `in` on strings). -/
def containsSub (p : List Char) : List Char → Bool
  | [] => p.isEmpty
  | c :: rest => listStartsWith p (c :: rest) || containsSub p rest

/-- Python `str.split(sep)` helper: accumulate the current (reversed) piece. -/
def pySplitGo (sep : Char) (cur : List Char) : List Char → List (List Char)
  | [] => [cur.reverse]
  | c :: rest =>
    if c == sep then cur.reverse :: pySplitGo sep [] rest
    else pySplitGo sep (c :: cur) rest

/-- Python `str.split(sep)`. -/
def pySplit (sep : Char) (l : List Char) : List (List Char) :=
  pySplitGo sep [] l

/-- Python `" ".join(parts)`. -/
def joinSp : List (List Char) → List Char
  | [] => []
  | [s] => s
  | s :: rest => s ++ (' ' :: joinSp rest)

/-! ## JSON values and a model of Python `json.loads`

JSON numbers are modelled as integers; a fraction or exponent part makes the
model parser fail (the embedded tool-call payloads this repository handles
carry string parameters, so no claim depends on float values).  `\uXXXX`
escapes outside the surrogate range are supported. -/

/-- A parsed JSON value (Python object produced by `json.loads`). -/
inductive J where
  | null
  | bool (b : Bool)
  | num (n : Int)
  | str (s : List Char)
  | arr (elems : List J)
  | obj (fields : List (List Char × J))

/-- Skip JSON whitespace. -/
def skipWs : List Char → List Char
  | [] => []
  | c :: rest => if isWsChar c then skipWs rest else c :: rest

/-- Hex digit value. -/
def hexVal (c : Char) : Option Nat :=
  if '0' ≤ c ∧ c ≤ '9' then some (c.toNat - 48)
  else if 'a' ≤ c ∧ c ≤ 'f' then some (c.toNat - 87)
  else if 'A' ≤ c ∧ c ≤ 'F' then some (c.toNat - 55)
  else none

/-- Parse the body of a JSON string after the opening quote; returns the
decoded characters and the remainder after the closing quote. -/
def parseStrBody : List Char → Option (List Char × List Char)
  | [] => none
  | '\\' :: 'u' :: h1 :: h2 :: h3 :: h4 :: rest =>
    match hexVal h1, hexVal h2, hexVal h3, hexVal h4 with
    | some a, some b, some c, some d =>
      (parseStrBody rest).map
        (fun p => (Char.ofNat (((a * 16 + b) * 16 + c) * 16 + d) :: p.1, p.2))
    | _, _, _, _ => none
  | '\\' :: e :: rest =>
    (if e = '"' then some '"'
     else if e = '\\' then some '\\'
     else if e = '/' then some '/'
     else if e = 'b' then some '\x08'
     else if e = 'f' then some '\x0c'
     else if e = 'n' then some '\n'
     else if e = 'r' then some '\r'
     else if e = 't' then some '\t'
     else none).bind
      (fun ch => (parseStrBody rest).map (fun p => (ch :: p.1, p.2)))
  | c :: rest =>
    if c = '"' then some ([], rest)
    else if c.toNat < 32 then none
    else (parseStrBody rest).map (fun p => (c :: p.1, p.2))

/-- Digits to a natural number. -/
def digitsToNat (ds : List Char) : Nat :=
  ds.foldl (fun a c => a * 10 + (c.toNat - 48)) 0

/-- Parse a JSON integer (sign and digits; a following `.`/`e`/`E` is rejected
by this model). -/
def parseNumCore (l : List Char) : Option (Int × List Char) :=
  let ds := l.takeWhile (fun c => c.isDigit)
  let rest := l.dropWhile (fun c => c.isDigit)
  if ds.isEmpty then none
  else if ds.head? = some '0' ∧ ds.length > 1 then none
  else
    match rest with
    | '.' :: _ => none
    | 'e' :: _ => none
    | 'E' :: _ => none
    | _ => some ((digitsToNat ds : Int), rest)

/-- Parse a JSON number with optional leading minus. -/
def parseNum : List Char → Option (Int × List Char)
  | '-' :: rest => (parseNumCore rest).map (fun p => (-p.1, p.2))
  | l => parseNumCore l

mutual

/-- Parse one JSON value (fuel-indexed recursive descent). -/
def parseVal : Nat → List Char → Option (J × List Char)
  | 0, _ => none
  | fuel + 1, s =>
    match skipWs s with
    | [] => none
    | '{' :: rest =>
      (match skipWs rest with
       | '}' :: r2 => some (J.obj [], r2)
       | r2 => parseMembers fuel r2 [])
    | '[' :: rest =>
      (match skipWs rest with
       | ']' :: r2 => some (J.arr [], r2)
       | r2 => parseElems fuel r2 [])
    | '"' :: rest => (parseStrBody rest).map (fun p => (J.str p.1, p.2))
    | 't' :: 'r' :: 'u' :: 'e' :: rest => some (J.bool true, rest)
    | 'f' :: 'a' :: 'l' :: 's' :: 'e' :: rest => some (J.bool false, rest)
    | 'n' :: 'u' :: 'l' :: 'l' :: rest => some (J.null, rest)
    | c :: rest =>
      if c = '-' ∨ c.isDigit then (parseNum (c :: rest)).map (fun p => (J.num p.1, p.2))
      else none

/-- Parse the members of a JSON object after the opening brace. -/
def parseMembers : Nat → List Char → List (List Char × J) → Option (J × List Char)
  | 0, _, _ => none
  | fuel + 1, s, acc =>
    match skipWs s with
    | '"' :: rest =>
      (match parseStrBody rest with
       | none => none
       | some (key, r2) =>
         match skipWs r2 with
         | ':' :: r3 =>
           (match parseVal fuel r3 with
            | none => none
            | some (v, r4) =>
              match skipWs r4 with
              | ',' :: r5 => parseMembers fuel r5 (acc ++ [(key, v)])
              | '}' :: r5 => some (J.obj (acc ++ [(key, v)]), r5)
              | _ => none)
         | _ => none)
    | _ => none

/-- Parse the elements of a JSON array after the opening bracket. -/
def parseElems : Nat → List Char → List J → Option (J × List Char)
  | 0, _, _ => none
  | fuel + 1, s, acc =>
    match parseVal fuel s with
    | none => none
    | some (v, r) =>
      match skipWs r with
      | ',' :: r2 => parseElems fuel r2 (acc ++ [v])
      | ']' :: r2 => some (J.arr (acc ++ [v]), r2)
      | _ => none

end

/-- Model of Python `json.loads`: parse one value and require only whitespace
to remain. -/
def jsonLoads (s : List Char) : Option J :=
  match parseVal (s.length + 1) s with
  | some (v, rest) => if skipWs rest = [] then some v else none
  | none => none

/-- Python `dict.get` on the field list produced by `json.loads` (a later
duplicate key overrides an earlier one, as in Python). -/
def dictGet (fields : List (List Char × J)) (k : List Char) : Option J :=
  match (fields.filter (fun p => p.1 == k)).getLast? with
  | some p => some p.2
  | none => none

/-- Python truthiness of a parsed JSON value. -/
def jTruthy : J → Bool
  | .null => false
  | .bool b => b
  | .num n => !(n == 0)
  | .str s => !s.isEmpty
  | .arr l => !l.isEmpty
  | .obj f => !f.isEmpty

/-- Single-quote character, written via its code to keep literals simple. -/
def sqc : Char := Char.ofNat 39

mutual

/-- Python `repr` of a parsed JSON value (used by f-string interpolation of
non-string values). -/
def pyRepr : J → List Char
  | .null => "None".toList
  | .bool true => "True".toList
  | .bool false => "False".toList
  | .num n => (toString n).toList
  | .str s => sqc :: s ++ [sqc]
  | .arr l => '[' :: pyReprArr l ++ [']']
  | .obj f => '\x7b' :: pyReprObj f ++ ['\x7d']

/-- Comma-separated reprs of list elements. -/
def pyReprArr : List J → List Char
  | [] => []
  | [v] => pyRepr v
  | v :: rest => pyRepr v ++ ", ".toList ++ pyReprArr rest

/-- Comma-separated reprs of dict items. -/
def pyReprObj : List (List Char × J) → List Char
  | [] => []
  | [p] => sqc :: p.1 ++ [sqc] ++ ": ".toList ++ pyRepr p.2
  | p :: rest => sqc :: p.1 ++ [sqc] ++ ": ".toList ++ pyRepr p.2 ++ ", ".toList ++ pyReprObj rest

end

/-- Python `f"{x}"` for an optional JSON value (`str()` semantics: a string
interpolates unquoted, `None` as `"None"`, containers via `repr`). -/
def pyStr : Option J → List Char
  | none => "None".toList
  | some (J.str s) => s
  | some v => pyRepr v

/-! ## `process_function_call` (gemma_processor.py, lines 504-574) -/

/-- Result of `process_function_call`: the returned string and the list of
arguments passed to the `get_documentation` capability (`get_context_qdrant`)
during the call. -/
structure FCOut where
  result : List Char
  queries : List J

/-- `content.find("{")` and the suffix from there; `none` when no opening
brace exists. -/
def fromBrace : List Char → Option (List Char)
  | [] => none
  | c :: rest => if c = '{' then some (c :: rest) else fromBrace rest

/-- The brace-counting scan of `process_function_call`: starting at the first
`\x7b`, accumulate characters until the running count of `\x7b` minus `\x7d`
returns to zero; `none` when no closing brace balances (json_end == -1). -/
def takeBal : List Char → Int → List Char → Option (List Char)
  | [], _, _ => none
  | c :: rest, cnt, acc =>
    if c = '{' then takeBal rest (cnt + 1) (acc ++ [c])
    else if c = '}' then
      (if cnt - 1 = 0 then some (acc ++ [c]) else takeBal rest (cnt - 1) (acc ++ [c]))
    else takeBal rest cnt (acc ++ [c])

/-- Extract the first balanced `\x7b...\x7d` block of `content`
(`json_start`/`json_end` computation of `process_function_call`). -/
def extractJson (content : List Char) : Option (List Char) :=
  match fromBrace content with
  | none => none
  | some suffix => takeBal suffix 0 []

def errInvalid : List Char := "Error: Invalid function call format".toList

def errNoQuery : List Char := "Error: No query provided for context search".toList

/-- The outer `except` of `process_function_call` returns
`f"Error processing function call: {str(e)}"`; the exception text of the
`AttributeError` raised by `.get` on a non-dict is abbreviated. -/
def errProcessing : List Char := "Error processing function call: attribute error".toList

/-- `f"Error: Unknown function '{function_name}'"`. -/
def errUnknown (rendered : List Char) : List Char :=
  "Error: Unknown function ".toList ++ sqc :: rendered ++ [sqc]

def ctxFound : List Char := "Context found: ".toList

def nameKey : List Char := "name".toList
def paramsKey : List Char := "parameters".toList
def queryKey : List Char := "query".toList
def getDocName : List Char := "get_documentation".toList

/-- Shallow embedding of `process_function_call(content, project_name)`.
`doc` models the external `get_context_qdrant` capability (it takes the
`query` value and returns the formatted context string). -/
def processFunctionCall (doc : J → List Char) (content : List Char) : FCOut :=
  match extractJson content with
  | none => ⟨[], []⟩
  | some raw =>
    match jsonLoads (pyStrip (collapseWs raw)) with
    | none => ⟨errInvalid, []⟩
    | some (J.obj fields) =>
      (match dictGet fields nameKey with
       | some (J.str n) =>
         if n = getDocName then
           (match (dictGet fields paramsKey).getD (J.obj []) with
            | J.obj pf =>
              (let q := (dictGet pf queryKey).getD (J.str [])
               if jTruthy q then ⟨ctxFound ++ doc q, [q]⟩ else ⟨errNoQuery, []⟩)
            | _ => ⟨errProcessing, []⟩)
         else ⟨errUnknown n, []⟩
       | other => ⟨errUnknown (pyStr other), []⟩)
    | some _ => ⟨errProcessing, []⟩

/-! ## The streaming loop of `process_gemma_chat` (gemma_processor.py, lines 305-501) -/

/-- One entry of the LiveKit chat context (`chat_ctx.add_message` arguments). -/
structure ChatMsg where
  role : List Char
  content : List Char

/-- Everything the streaming loop produces:

* `outPre`  — fragments yielded from the original stream (passthrough),
* `outPost` — fragments yielded after that (resumed stream, or the fallback
  on a backend exception),
* `queries` — capability invocations performed,
* `hist`    — final state of the caller's `chat_ctx`,
* `resumed` — whether a follow-up model request was issued. -/
structure GOut where
  outPre : List (List Char)
  outPost : List (List Char)
  queries : List J
  hist : List ChatMsg
  resumed : Bool

/-- The fragments actually yielded to the caller, in order. -/
def GOut.output (g : GOut) : List (List Char) :=
  g.outPre ++ g.outPost

/-- The fixed fallback fragment of the outer `except` clause. -/
def fallbackMsg : List Char :=
  "I\x27m experiencing technical difficulties with the language model.".toList

def assistantRole : List Char := "assistant".toList

/-- The two synthetic messages appended to `chat_ctx` when a function call
resolves: the raw call (stripped) and `f"Function result: {function_result}"`. -/
def callMsgs (buffer result : List Char) : List ChatMsg :=
  [⟨assistantRole, pyStrip buffer⟩, ⟨assistantRole, "Function result: ".toList ++ result⟩]

/-- What the resumed stream yields to the caller: every nonempty fragment,
verbatim, plus the fallback if the resumed stream raises. -/
def resumeOut (resume : List (List Char)) (errR : Bool) : List (List Char) :=
  resume.filter (fun f => !f.isEmpty) ++ (if errR then [fallbackMsg] else [])

/-- `"{" in chunk_content`. -/
def hasOpenBrace (l : List Char) : Bool := l.any (fun c => c == '{')

/-- The chunk brace counter of `process_gemma_chat`: +1 per `\x7b`, −1 per
`\x7d`, all other characters (including square brackets) ignored. -/
def braceDelta (c : Char) : Int :=
  if c = '{' then 1 else if c = '}' then -1 else 0

/-- Sum of `braceDelta` over a fragment or buffer (`brace_count`). -/
def braceCount (l : List Char) : Int :=
  (l.map braceDelta).sum

/-- What the body of the `async for chunk in stream` loop does with one
fragment, given the current `in_function_call` flag and `function_buffer`:

* `skip` — falsy (empty) chunk content, body skipped;
* `complete buf` — a brace count of zero is reached and the buffered text
  `buf` is handed to `process_function_call` (both the single-chunk entry
  branch, where the buffer is the chunk itself, and the accumulation branch);
* `acc buf` — the chunk is appended to the buffer (or starts it) and the
  loop stays in the function call;
* `yield` — ordinary content, forwarded to the caller.

The conditions are those of the source, in source order. -/
inductive GAct where
  | skip
  | yield
  | acc (buf : List Char)
  | complete (buf : List Char)

/-- The branch taken by the loop body for one chunk `c`. -/
def gemmaClassify (inCall : Bool) (buffer c : List Char) : GAct :=
  if c.isEmpty then .skip
  else if hasOpenBrace c && !inCall then
    (if braceCount c = 0 then .complete c else .acc c)
  else if inCall then
    (if braceCount (buffer ++ c) = 0 then .complete (buffer ++ c) else .acc (buffer ++ c))
  else .yield

/-- The `async for chunk in stream` loop of `process_gemma_chat`.  State:
`hist` is the caller's `chat_ctx`, `inCall` is `in_function_call`, `buffer`
is `function_buffer`.  `resume`/`errR` model the stream produced by the
follow-up request issued after a function call resolves (with a nonempty
`function_result` the loop adds the two synthetic messages, streams the new
response, and returns; with an empty result it resets the state). -/
def gemmaLoop (doc : J → List Char) (resume : List (List Char)) (errR : Bool) :
    List ChatMsg → Bool → List Char → List (List Char) → GOut
  | hist, _, _, [] => ⟨[], [], [], hist, false⟩
  | hist, inCall, buffer, c :: rest =>
    match gemmaClassify inCall buffer c with
    | .skip => gemmaLoop doc resume errR hist inCall buffer rest
    | .acc buf => gemmaLoop doc resume errR hist true buf rest
    | .complete buf =>
      (let fc := processFunctionCall doc buf
       if fc.result.isEmpty then gemmaLoop doc resume errR hist false [] rest
       else ⟨[], resumeOut resume errR, fc.queries, hist ++ callMsgs buf fc.result, true⟩)
    | .yield =>
      (let r := gemmaLoop doc resume errR hist inCall buffer rest
       { r with outPre := c :: r.outPre })

/-- Shallow embedding of `process_gemma_chat` from the first streamed chunk
on.  `frags`/`errP` model the primary response stream (fragments delivered,
then optionally an exception); if no resume happened and the primary stream
raises, the outer `except` yields the fallback fragment and the generator
ends. -/
def processGemmaChat (doc : J → List Char) (frags : List (List Char)) (errP : Bool)
    (resume : List (List Char)) (errR : Bool) (hist : List ChatMsg) : GOut :=
  let r := gemmaLoop doc resume errR hist false [] frags
  if r.resumed then r
  else { r with outPost := r.outPost ++ (if errP then [fallbackMsg] else []) }

/-! ## The streaming filter of `process_mistral_chat` (mistral_processor.py, lines 216-277) -/

/-- Filter state: `in_tool_call_json` and `bracket_count`. -/
structure MState where
  inJson : Bool
  cnt : Int

/-- `content.count('[') - content.count(']')`: +1 per `[`, −1 per `]`, braces
ignored. -/
def brkDelta (c : Char) : Int :=
  if c = '[' then 1 else if c = ']' then -1 else 0

/-- Sum of `brkDelta` over a fragment. -/
def brkCount (l : List Char) : Int :=
  (l.map brkDelta).sum

/-- `'[' in content`. -/
def hasOpenBracket (l : List Char) : Bool := l.any (fun c => c == '[')

/-- The tool-call indicator test of `process_mistral_chat` (lines 259-261):
substrings `"name":`, `"arguments":`, `get_documentation`, `get_weather`, or a
stripped content equal to one of `\x7b`, `\x7d`, `"]`, `"\x7d`. -/
def mistralIndicator (c : List Char) : Bool :=
  containsSub "\"name\":".toList c || containsSub "\"arguments\":".toList c ||
  containsSub "get_documentation".toList c || containsSub "get_weather".toList c ||
  pyStrip c == "\x7b".toList || pyStrip c == "\x7d".toList ||
  pyStrip c == "\"]".toList || pyStrip c == "\"\x7d".toList

/-- One fragment of the mistral filter: returns the new state and the
fragments yielded (none, or the fragment itself). -/
def mistralStep (s : MState) (c : List Char) : MState × List (List Char) :=
  if hasOpenBracket c && !s.inJson then (⟨true, brkCount c⟩, [])
  else if s.inJson then
    (let b := s.cnt + brkCount c
     if b ≤ 0 then (⟨false, 0⟩, []) else (⟨true, b⟩, []))
  else if mistralIndicator c then (s, [])
  else (s, [c])

/-- The mistral streaming filter over a list of AI-content fragments; a
fragment whose `strip()` is empty is skipped by the chunk guard. -/
def mistralRun (s : MState) : List (List Char) → List (List Char)
  | [] => []
  | c :: rest =>
    if (pyStrip c).isEmpty then mistralRun s rest
    else (mistralStep s c).2 ++ mistralRun (mistralStep s c).1 rest

/-- Initial filter state. -/
def mInit : MState := ⟨false, 0⟩

/-! ## Chat-context serialization of `process_ollama_chat` (ollama_processor.py, lines 28-91) -/

/-- One content part of a LiveKit message: a text string or an
`ImageContent` item carrying the encoded image. -/
inductive ContentItem where
  | text (s : List Char)
  | image (img : List Char)

/-- LiveKit message content: a plain string or a list of parts. -/
inductive MsgContent where
  | str (s : List Char)
  | parts (items : List ContentItem)

/-- A message of the incoming chat context. -/
structure CtxMsg where
  role : List Char
  content : MsgContent

/-- A serialized Ollama wire message; `images = []` models the absent
`images` field. -/
structure OllamaMsg where
  role : List Char
  content : List Char
  images : List (List Char)

/-- The role if-chain of the serialization loop (an identity mapping written
out as in the source). -/
def pyRoleOllama (r : List Char) : List Char :=
  if r = "system".toList then "system".toList
  else if r = "user".toList then "user".toList
  else if r = "assistant".toList then "assistant".toList
  else r

/-- Image payload extraction: a `data:image` URL keeps the part after the
first comma (`item.image.split(',')[1]`), otherwise the raw data is base64
encoded (`b64` models `base64.b64encode(...)` on the encoded image). -/
def ollamaImageData (b64 : List Char → List Char) (img : List Char) : List Char :=
  if listStartsWith "data:image".toList img then
    (if img.contains ',' then (pySplit ',' img).getD 1 [] else img)
  else b64 img

/-- Text parts of a content list (plain strings). -/
def itemText : ContentItem → Option (List Char)
  | .text s => some s
  | .image _ => none

/-- Image parts of a content list (an empty `item.image` is falsy and
skipped). -/
def itemImage (b64 : List Char → List Char) : ContentItem → Option (List Char)
  | .image img => if img.isEmpty then none else some (ollamaImageData b64 img)
  | .text _ => none

/-- Serialize one chat-context message for Ollama; images are collected only
when the message is the last one of the context. -/
def serializeOllamaMsg (b64 : List Char → List Char) (isLast : Bool) (m : CtxMsg) : OllamaMsg :=
  match m.content with
  | .str s => ⟨pyRoleOllama m.role, s, []⟩
  | .parts items =>
    (let textParts := items.filterMap itemText
     let imageParts := if isLast then items.filterMap (itemImage b64) else []
     if !imageParts.isEmpty && isLast then
       ⟨pyRoleOllama m.role, joinSp textParts, imageParts⟩
     else ⟨pyRoleOllama m.role, joinSp textParts, []⟩)

/-- The indexed serialization loop (`for idx, msg in enumerate(chat_ctx.items)`
with `last_message_index`). -/
def ollamaMsgsAux (b64 : List Char → List Char) (last : Nat) : Nat → List CtxMsg → List OllamaMsg
  | _, [] => []
  | i, m :: ms => serializeOllamaMsg b64 (i == last) m :: ollamaMsgsAux b64 last (i + 1) ms

/-- The full `messages` list sent to Ollama. -/
def ollamaMessages (b64 : List Char → List Char) (ctx : List CtxMsg) : List OllamaMsg :=
  ollamaMsgsAux b64 (ctx.length - 1) 0 ctx

/-- The text kept for a message: its plain string content, or its text parts
joined by spaces. -/
def textOnly (m : CtxMsg) : List Char :=
  match m.content with
  | .str s => s
  | .parts items => joinSp (items.filterMap itemText)

/-! ## `normalize_collection_name` (tools.py, lines 101-122) -/

/-- ASCII lowercase of one character (Python `str.lower` restricted to the
ASCII letters; all characters the later regex keeps are ASCII). -/
def lowerChar (c : Char) : Char :=
  if 'A' ≤ c ∧ c ≤ 'Z' then Char.ofNat (c.toNat + 32) else c

/-- `project_name.lower()`. -/
def lowerStr (l : List Char) : List Char := l.map lowerChar

/-- The regex class `[a-zA-Z0-9]`. -/
def isAlnumC (c : Char) : Bool :=
  ('a' ≤ c && c ≤ 'z') || ('A' ≤ c && c ≤ 'Z') || ('0' ≤ c && c ≤ '9')

/-- `re.sub(r'[^a-zA-Z0-9]+', '_', s)`, run-tracking helper: `prevNon`
records whether the previous character belonged to a non-alphanumeric run
already replaced. -/
def subNonAlnumAux : Bool → List Char → List Char
  | _, [] => []
  | prevNon, c :: rest =>
    if isAlnumC c then c :: subNonAlnumAux false rest
    else if prevNon then subNonAlnumAux true rest
    else '_' :: subNonAlnumAux true rest

/-- `re.sub(r'[^a-zA-Z0-9]+', '_', s)`: replace every maximal run of
non-alphanumeric characters by a single underscore. -/
def subNonAlnum (l : List Char) : List Char :=
  subNonAlnumAux false l

/-- `re.sub(r'_+', '_', s)`, run-tracking helper. -/
def collapseUndersAux : Bool → List Char → List Char
  | _, [] => []
  | prevU, c :: rest =>
    if c = '_' then
      (if prevU then collapseUndersAux true rest else '_' :: collapseUndersAux true rest)
    else c :: collapseUndersAux false rest

/-- `re.sub(r'_+', '_', s)`: collapse runs of underscores. -/
def collapseUnders (l : List Char) : List Char :=
  collapseUndersAux false l

/-- `s.strip('_')`. -/
def stripUnders (l : List Char) : List Char :=
  ((l.dropWhile (fun c => c == '_')).reverse.dropWhile (fun c => c == '_')).reverse

/-- Shallow embedding of `normalize_collection_name(project_name)`. -/
def normalize_collection_name (l : List Char) : List Char :=
  stripUnders (collapseUnders (subNonAlnum (lowerStr l)))

/-- A character allowed in a canonical collection name: lowercase letter,
digit, or underscore. -/
def goodChar (c : Char) : Bool :=
  ('a' ≤ c && c ≤ 'z') || ('0' ≤ c && c ≤ '9') || c == '_'

/-- No two consecutive underscores. -/
def noDoubleUnders : List Char → Bool
  | [] => true
  | [_] => true
  | a :: b :: rest => !(a == '_' && b == '_') && noDoubleUnders (b :: rest)

/-- The well-formedness predicate of the claim: only lowercase letters,
digits and underscores; no leading, trailing or doubled underscore. -/
def collectionNameWellFormed (l : List Char) : Bool :=
  l.all goodChar && noDoubleUnders l && !(l.head? == some '_') && !(l.getLast? == some '_')

/-! ## Claim-side (spec-side) definitions -/

/-- The depth function asserted by the spec: +1 on `\x7b` and `[`, −1 on
`\x7d` and `]`.  Stated from the spec's words for comparison with the
source-derived `braceCount`/`brkCount`. -/
def specDelta (c : Char) : Int :=
  if c = '{' ∨ c = '[' then 1 else if c = '}' ∨ c = ']' then -1 else 0

/-- Spec-side nesting depth of a buffer. -/
def specDepth (l : List Char) : Int :=
  (l.map specDelta).sum

/-- A complete single tool-call text: starts with `\x7b`, every proper
nonempty prefix has positive brace count, and the total brace count is zero.
This formalizes "total tool-call text" in the fragment-invariance claim. -/
def balancedObj (T : List Char) : Prop :=
  T.head? = some '{' ∧ braceCount T = 0 ∧
    ∀ k, k < T.length → 0 < k → 0 < braceCount (T.take k)

instance : DecidablePred balancedObj := fun T => by
  unfold balancedObj
  infer_instance

/-- Concatenation of a fragment list (total text of a stream). -/
def concatAll (l : List (List Char)) : List Char :=
  l.foldr (fun a b => a ++ b) []

/-- Default serialized message (for indexed access in statements). -/
def defOllamaMsg : OllamaMsg := ⟨[], [], []⟩

/-- Default context message (for indexed access in statements). -/
def defCtxMsg : CtxMsg := ⟨[], .str []⟩

/-! ## General lemmas -/

theorem braceCount_nil : braceCount [] = 0 := rfl

theorem braceCount_cons (c : Char) (l : List Char) :
    braceCount (c :: l) = braceDelta c + braceCount l := by
  simp [braceCount]

theorem braceCount_append (a b : List Char) :
    braceCount (a ++ b) = braceCount a + braceCount b := by
  simp [braceCount]

theorem concatAll_cons (c : List Char) (rest : List (List Char)) :
    concatAll (c :: rest) = c ++ concatAll rest := rfl

theorem concatAll_ne_nil (cs : List (List Char)) (h : cs ≠ [])
    (hne : ∀ f ∈ cs, f.isEmpty = false) : concatAll cs ≠ [] := by
  cases cs with
  | nil => exact absurd rfl h
  | cons c rest =>
    have hc := hne c (List.mem_cons_self c rest)
    rw [concatAll_cons]
    intro hcontra
    rcases List.append_eq_nil.mp hcontra with ⟨h1, _⟩
    simp [h1] at hc

theorem head?_append_left (f x : List Char) (h : f ≠ []) : (f ++ x).head? = f.head? := by
  cases f with
  | nil => exact absurd rfl h
  | cons a rest => rfl

/-! ## Lemmas about the gemma loop classifier -/

theorem gemmaClassify_skip_inv {inCall : Bool} {buffer c : List Char}
    (h : gemmaClassify inCall buffer c = .skip) : c.isEmpty = true := by
  unfold gemmaClassify at h
  split_ifs at h <;> simp_all

theorem gemmaClassify_yield_inv {inCall : Bool} {buffer c : List Char}
    (h : gemmaClassify inCall buffer c = .yield) :
    inCall = false ∧ hasOpenBrace c = false ∧ c.isEmpty = false := by
  unfold gemmaClassify at h
  split_ifs at h <;> simp_all

theorem gemmaClassify_acc_inv {inCall : Bool} {buffer c buf : List Char}
    (h : gemmaClassify inCall buffer c = .acc buf) :
    braceCount buf ≠ 0 ∧ c.isEmpty = false ∧
      ((inCall = false ∧ buf = c ∧ hasOpenBrace c = true) ∨ (inCall = true ∧ buf = buffer ++ c)) := by
  unfold gemmaClassify at h
  split_ifs at h <;> simp_all

theorem gemmaClassify_complete_inv {inCall : Bool} {buffer c buf : List Char}
    (h : gemmaClassify inCall buffer c = .complete buf) :
    braceCount buf = 0 ∧ c.isEmpty = false ∧
      ((inCall = false ∧ buf = c ∧ hasOpenBrace c = true) ∨ (inCall = true ∧ buf = buffer ++ c)) := by
  unfold gemmaClassify at h
  split_ifs at h <;> simp_all

/-! ## Invariants of the gemma streaming loop -/

theorem gemmaLoop_outPost_eq (doc : J → List Char) (resume : List (List Char)) (errR : Bool) :
    ∀ (frags : List (List Char)) (hist : List ChatMsg) (inCall : Bool) (buffer : List Char),
      (gemmaLoop doc resume errR hist inCall buffer frags).outPost =
        (if (gemmaLoop doc resume errR hist inCall buffer frags).resumed then resumeOut resume errR
         else [])
  | [], hist, inCall, buffer => by simp [gemmaLoop]
  | c :: rest, hist, inCall, buffer => by
    rw [gemmaLoop]
    cases h : gemmaClassify inCall buffer c with
    | skip => exact gemmaLoop_outPost_eq doc resume errR rest hist inCall buffer
    | yield => simpa using gemmaLoop_outPost_eq doc resume errR rest hist inCall buffer
    | acc buf => exact gemmaLoop_outPost_eq doc resume errR rest hist true buf
    | complete buf =>
      by_cases hr : (processFunctionCall doc buf).result.isEmpty
      · simpa [hr] using gemmaLoop_outPost_eq doc resume errR rest hist false []
      · simp [hr]

theorem gemmaLoop_outPre_noBrace (doc : J → List Char) (resume : List (List Char)) (errR : Bool) :
    ∀ (frags : List (List Char)) (hist : List ChatMsg) (inCall : Bool) (buffer : List Char),
      ∀ f ∈ (gemmaLoop doc resume errR hist inCall buffer frags).outPre, hasOpenBrace f = false
  | [], hist, inCall, buffer => by simp [gemmaLoop]
  | c :: rest, hist, inCall, buffer => by
    rw [gemmaLoop]
    cases h : gemmaClassify inCall buffer c with
    | skip => exact gemmaLoop_outPre_noBrace doc resume errR rest hist inCall buffer
    | yield =>
      intro f hf
      simp only at hf
      rcases List.mem_cons.mp hf with rfl | hf'
      · exact (gemmaClassify_yield_inv h).2.1
      · exact gemmaLoop_outPre_noBrace doc resume errR rest hist inCall buffer f hf'
    | acc buf => exact gemmaLoop_outPre_noBrace doc resume errR rest hist true buf
    | complete buf =>
      by_cases hr : (processFunctionCall doc buf).result.isEmpty
      · simpa [hr] using gemmaLoop_outPre_noBrace doc resume errR rest hist false []
      · simp [hr]

theorem gemmaLoop_outPre_sublist (doc : J → List Char) (resume : List (List Char)) (errR : Bool) :
    ∀ (frags : List (List Char)) (hist : List ChatMsg) (inCall : Bool) (buffer : List Char),
      List.Sublist (gemmaLoop doc resume errR hist inCall buffer frags).outPre frags
  | [], hist, inCall, buffer => by simp [gemmaLoop]
  | c :: rest, hist, inCall, buffer => by
    rw [gemmaLoop]
    cases h : gemmaClassify inCall buffer c with
    | skip => exact (gemmaLoop_outPre_sublist doc resume errR rest hist inCall buffer).cons c
    | yield => exact (gemmaLoop_outPre_sublist doc resume errR rest hist inCall buffer).cons₂ c
    | acc buf => exact (gemmaLoop_outPre_sublist doc resume errR rest hist true buf).cons c
    | complete buf =>
      by_cases hr : (processFunctionCall doc buf).result.isEmpty
      · simpa [hr] using (gemmaLoop_outPre_sublist doc resume errR rest hist false []).cons c
      · simp [hr]

theorem gemmaLoop_hist_ext (doc : J → List Char) (resume : List (List Char)) (errR : Bool) :
    ∀ (frags : List (List Char)) (hist : List ChatMsg) (inCall : Bool) (buffer : List Char),
      ((gemmaLoop doc resume errR hist inCall buffer frags).hist = hist ∧
        (gemmaLoop doc resume errR hist inCall buffer frags).resumed = false) ∨
      (∃ B res, res.isEmpty = false ∧
        (gemmaLoop doc resume errR hist inCall buffer frags).hist = hist ++ callMsgs B res ∧
        (gemmaLoop doc resume errR hist inCall buffer frags).resumed = true)
  | [], hist, inCall, buffer => by simp [gemmaLoop]
  | c :: rest, hist, inCall, buffer => by
    rw [gemmaLoop]
    cases h : gemmaClassify inCall buffer c with
    | skip => exact gemmaLoop_hist_ext doc resume errR rest hist inCall buffer
    | yield => simpa using gemmaLoop_hist_ext doc resume errR rest hist inCall buffer
    | acc buf => exact gemmaLoop_hist_ext doc resume errR rest hist true buf
    | complete buf =>
      by_cases hr : (processFunctionCall doc buf).result.isEmpty
      · simpa [hr] using gemmaLoop_hist_ext doc resume errR rest hist false []
      · right
        refine ⟨buf, (processFunctionCall doc buf).result, ?_, ?_, ?_⟩ <;> simp [hr]

theorem gemmaLoop_passthrough (doc : J → List Char) (resume : List (List Char)) (errR : Bool) :
    ∀ (frags : List (List Char)) (hist : List ChatMsg),
      (∀ f ∈ frags, f.isEmpty = false ∧ hasOpenBrace f = false) →
      gemmaLoop doc resume errR hist false [] frags = ⟨frags, [], [], hist, false⟩
  | [], hist => by simp [gemmaLoop]
  | c :: rest, hist => by
    intro hh
    have hc := hh c (List.mem_cons_self c rest)
    have hcl : gemmaClassify false [] c = .yield := by
      unfold gemmaClassify
      simp [hc.1, hc.2]
    rw [gemmaLoop, hcl]
    simp only
    rw [gemmaLoop_passthrough doc resume errR rest hist
      (fun f hf => hh f (List.mem_cons_of_mem c hf))]

theorem processGemmaChat_outPre (doc : J → List Char) (frags : List (List Char)) (errP : Bool)
    (resume : List (List Char)) (errR : Bool) (hist : List ChatMsg) :
    (processGemmaChat doc frags errP resume errR hist).outPre =
      (gemmaLoop doc resume errR hist false [] frags).outPre := by
  unfold processGemmaChat
  cases h : (gemmaLoop doc resume errR hist false [] frags).resumed <;> simp [h]

theorem processGemmaChat_resumed (doc : J → List Char) (frags : List (List Char)) (errP : Bool)
    (resume : List (List Char)) (errR : Bool) (hist : List ChatMsg) :
    (processGemmaChat doc frags errP resume errR hist).resumed =
      (gemmaLoop doc resume errR hist false [] frags).resumed := by
  unfold processGemmaChat
  cases h : (gemmaLoop doc resume errR hist false [] frags).resumed <;> simp [h]

theorem processGemmaChat_queries (doc : J → List Char) (frags : List (List Char)) (errP : Bool)
    (resume : List (List Char)) (errR : Bool) (hist : List ChatMsg) :
    (processGemmaChat doc frags errP resume errR hist).queries =
      (gemmaLoop doc resume errR hist false [] frags).queries := by
  unfold processGemmaChat
  cases h : (gemmaLoop doc resume errR hist false [] frags).resumed <;> simp [h]

theorem processGemmaChat_hist (doc : J → List Char) (frags : List (List Char)) (errP : Bool)
    (resume : List (List Char)) (errR : Bool) (hist : List ChatMsg) :
    (processGemmaChat doc frags errP resume errR hist).hist =
      (gemmaLoop doc resume errR hist false [] frags).hist := by
  unfold processGemmaChat
  cases h : (gemmaLoop doc resume errR hist false [] frags).resumed <;> simp [h]

/-! ## Lemmas about the mistral filter -/

theorem mistralStep_exit_iff (b : Int) (c : List Char) :
    ((mistralStep ⟨true, b⟩ c).1.inJson = false) ↔ b + brkCount c ≤ 0 := by
  unfold mistralStep
  by_cases hb : b + brkCount c ≤ 0 <;> simp [hb]

theorem mistralRun_passthrough :
    ∀ frags : List (List Char),
      (∀ f ∈ frags,
        (pyStrip f).isEmpty = false ∧ hasOpenBracket f = false ∧ mistralIndicator f = false) →
      mistralRun mInit frags = frags
  | [] => by intro _; rfl
  | c :: rest => by
    intro hh
    have hc := hh c (List.mem_cons_self c rest)
    have hstep : mistralStep mInit c = (mInit, [c]) := by
      unfold mistralStep
      simp [hc.2.1, hc.2.2, mInit]
    rw [mistralRun, if_neg (by simp [hc.1]), hstep]
    simp only
    rw [mistralRun_passthrough rest (fun f hf => hh f (List.mem_cons_of_mem c hf))]
    rfl

/-! ## Lemmas about the Ollama serialization -/

theorem serializeOllamaMsg_notLast (b64 : List Char → List Char) (m : CtxMsg) :
    serializeOllamaMsg b64 false m = ⟨pyRoleOllama m.role, textOnly m, []⟩ := by
  obtain ⟨role, content⟩ := m
  cases content with
  | str s => rfl
  | parts items => simp [serializeOllamaMsg, textOnly]

theorem ollamaMsgsAux_getD (b64 : List Char → List Char) (last : Nat) :
    ∀ (ctx : List CtxMsg) (i j : Nat), j < ctx.length →
      (ollamaMsgsAux b64 last i ctx).getD j defOllamaMsg =
        serializeOllamaMsg b64 (i + j == last) (ctx.getD j defCtxMsg)
  | [], i, j => by intro h; simp at h
  | m :: ms, i, 0 => by intro _; simp [ollamaMsgsAux]
  | m :: ms, i, j + 1 => by
    intro h
    have hlen : j < ms.length := by
      simpa using Nat.lt_of_succ_lt_succ h
    have ih := ollamaMsgsAux_getD b64 last ms (i + 1) j hlen
    rw [ollamaMsgsAux]
    rw [List.getD_cons_succ, List.getD_cons_succ, ih]
    have : i + 1 + j = i + (j + 1) := by omega
    rw [this]

/-! ## Computation lemmas for `process_function_call` -/

theorem processFunctionCall_parse_fail (doc : J → List Char) (content ex : List Char)
    (hex : extractJson content = some ex)
    (hparse : jsonLoads (pyStrip (collapseWs ex)) = none) :
    processFunctionCall doc content = ⟨errInvalid, []⟩ := by
  unfold processFunctionCall
  rw [hex]
  simp only [hparse]

theorem processFunctionCall_unknown (doc : J → List Char) (content ex : List Char)
    (fields : List (List Char × J)) (n : List Char)
    (hex : extractJson content = some ex)
    (hparse : jsonLoads (pyStrip (collapseWs ex)) = some (J.obj fields))
    (hname : dictGet fields nameKey = some (J.str n))
    (hnot : n ≠ getDocName) :
    processFunctionCall doc content = ⟨errUnknown n, []⟩ := by
  unfold processFunctionCall
  rw [hex]
  simp only [hparse, hname]
  simp [hnot]

theorem errInvalid_ne_nil : errInvalid.isEmpty = false := rfl

theorem errUnknown_ne_nil (n : List Char) : (errUnknown n).isEmpty = false := rfl

theorem takeBal_run : ∀ (l R acc : List Char) (cnt : Int), 0 < cnt →
    cnt + braceCount l = 0 →
    (∀ k, 0 < k → k < l.length → 0 < cnt + braceCount (l.take k)) →
    takeBal (l ++ R) cnt acc = some (acc ++ l)
  | [], R, acc, cnt => by
    intro h1 h2 _
    rw [braceCount_nil] at h2
    omega
  | c :: rest, R, acc, cnt => by
    intro h1 h2 h3
    rw [braceCount_cons] at h2
    cases rest with
    | nil =>
      have hc : c = '}' := by
        by_cases ho : c = '{'
        · simp [ho, braceDelta, braceCount_nil] at h2; omega
        · by_cases hcl : c = '}'
          · exact hcl
          · simp [braceDelta, ho, hcl, braceCount_nil] at h2; omega
      subst hc
      have hcnt : cnt = 1 := by
        simp [braceDelta, braceCount_nil] at h2; omega
      rw [List.cons_append, takeBal]
      rw [if_neg (show ¬('}' = '{') from by decide)]
      rw [if_pos (show cnt - 1 = 0 from by omega)]
      simp
    | cons c2 ls =>
      have hpre1 : 0 < cnt + braceDelta c := by
        have := h3 1 (by omega) (by simp)
        simpa [List.take_succ_cons, braceCount_cons, braceCount_nil] using this
      have hpre : ∀ k, 0 < k → k < (c2 :: ls).length →
          0 < (cnt + braceDelta c) + braceCount ((c2 :: ls).take k) := by
        intro k hk hk2
        have := h3 (k + 1) (by omega) (by simpa using Nat.succ_lt_succ hk2)
        rw [List.take_succ_cons, braceCount_cons] at this
        omega
      have hsum : (cnt + braceDelta c) + braceCount (c2 :: ls) = 0 := by omega
      have ih := takeBal_run (c2 :: ls) R (acc ++ [c]) (cnt + braceDelta c) hpre1 hsum hpre
      rw [List.cons_append, takeBal]
      by_cases ho : c = '{'
      · rw [if_pos ho]
        have : braceDelta c = 1 := by simp [braceDelta, ho]
        rw [this] at ih
        rw [ih]
        simp
      · by_cases hcl : c = '}'
        · rw [if_neg ho, if_pos hcl]
          have hd : braceDelta c = -1 := by simp [braceDelta, ho, hcl]
          rw [hd] at hpre1 ih
          rw [if_neg (by omega)]
          rw [show cnt - 1 = cnt + -1 from by omega, ih]
          simp
        · rw [if_neg ho, if_neg hcl]
          have hd : braceDelta c = 0 := by simp [braceDelta, ho, hcl]
          rw [hd] at ih
          rw [show cnt + 0 = cnt from by omega] at ih
          rw [ih]
          simp

theorem hasOpenBrace_of_head (l : List Char) (h : l.head? = some '{') : hasOpenBrace l = true := by
  cases l with
  | nil => simp at h
  | cons c rest =>
    have hc : c = '{' := by simpa using h
    subst hc
    simp [hasOpenBrace]

theorem isEmpty_false_of_head (l : List Char) (h : l.head? = some '{') : l.isEmpty = false := by
  cases l with
  | nil => simp at h
  | cons c rest => rfl

theorem balanced_prefix_pos (T P Q : List Char) (h : balancedObj T) (hT : T = P ++ Q)
    (hP : P ≠ []) (hQ : Q ≠ []) : 0 < braceCount P := by
  have htake : T.take P.length = P := by rw [hT]; exact List.take_left P Q
  have hlen : P.length < T.length := by
    rw [hT, List.length_append]
    have : 0 < Q.length := List.length_pos.mpr hQ
    omega
  have hpos : 0 < P.length := List.length_pos.mpr hP
  have := h.2.2 P.length hlen hpos
  rwa [htake] at this

theorem extractJson_balanced (O R : List Char) (h : balancedObj O) :
    extractJson (O ++ R) = some O := by
  obtain ⟨hhead, hsum, hpre⟩ := h
  cases O with
  | nil => simp at hhead
  | cons c O' =>
    have hc : c = '{' := by simpa using hhead
    subst hc
    have hO' : O' ≠ [] := by
      intro hcontra
      subst hcontra
      rw [braceCount_cons, braceCount_nil] at hsum
      simp [braceDelta] at hsum
    rw [List.cons_append]
    unfold extractJson fromBrace
    rw [if_pos rfl]
    simp only
    rw [takeBal]
    rw [if_pos rfl]
    have hrun := takeBal_run O' R ([] ++ ['{']) (0 + 1) (by omega)
      (by rw [braceCount_cons] at hsum; simp [braceDelta] at hsum; omega)
      (by
        intro k hk hk2
        have := hpre (k + 1) (by simpa using Nat.succ_lt_succ hk2) (by omega)
        rw [List.take_succ_cons, braceCount_cons] at this
        simp [braceDelta] at this
        omega)
    rw [hrun]
    simp

theorem processFunctionCall_first_object (doc : J → List Char) (O R : List Char)
    (h : balancedObj O) :
    processFunctionCall doc (O ++ R) = processFunctionCall doc O := by
  have h1 := extractJson_balanced O R h
  have h2 := extractJson_balanced O [] h
  rw [List.append_nil] at h2
  unfold processFunctionCall
  rw [h1, h2]

theorem gemmaLoop_single_complete (doc : J → List Char) (resume : List (List Char)) (errR : Bool)
    (hist : List ChatMsg) (T : List Char) (hne : T.isEmpty = false)
    (hbr : hasOpenBrace T = true) (hz : braceCount T = 0) :
    gemmaLoop doc resume errR hist false [] [T] =
      (if (processFunctionCall doc T).result.isEmpty then (⟨[], [], [], hist, false⟩ : GOut)
       else ⟨[], resumeOut resume errR, (processFunctionCall doc T).queries,
             hist ++ callMsgs T (processFunctionCall doc T).result, true⟩) := by
  have hcl : gemmaClassify false [] T = .complete T := by
    unfold gemmaClassify
    simp [hne, hbr, hz]
  rw [gemmaLoop, hcl]
  by_cases hr : (processFunctionCall doc T).result.isEmpty
  · rw [if_pos hr]
    simp only [hr, if_pos rfl]
    rw [gemmaLoop]
    simp
  · simp only [hr]
    rw [if_neg (by simp [hr]), if_neg (by simp [hr])]

theorem ne_nil_of_isEmpty_false {l : List Char} (h : l.isEmpty = false) : l ≠ [] := by
  cases l <;> simp_all

theorem gemma_balanced_accum (doc : J → List Char) (resume : List (List Char)) (errR : Bool)
    (hist : List ChatMsg) :
    ∀ (cs : List (List Char)) (B : List Char), cs ≠ [] →
      (∀ f ∈ cs, f.isEmpty = false) → B ≠ [] →
      balancedObj (B ++ concatAll cs) →
      gemmaLoop doc resume errR hist true B cs =
        (if (processFunctionCall doc (B ++ concatAll cs)).result.isEmpty
         then (⟨[], [], [], hist, false⟩ : GOut)
         else ⟨[], resumeOut resume errR, (processFunctionCall doc (B ++ concatAll cs)).queries,
               hist ++ callMsgs (B ++ concatAll cs)
                 (processFunctionCall doc (B ++ concatAll cs)).result, true⟩)
  | [], B => by intro h; exact absurd rfl h
  | c :: rest, B => by
    intro _ hne hB hbal
    have hc := hne c (List.mem_cons_self c rest)
    cases rest with
    | nil =>
      have hT : B ++ concatAll [c] = B ++ c := by
        simp [concatAll]
      rw [hT] at hbal ⊢
      have hz : braceCount (B ++ c) = 0 := hbal.2.1
      have hcl : gemmaClassify true B c = .complete (B ++ c) := by
        unfold gemmaClassify
        simp [hc, hz]
      rw [gemmaLoop, hcl]
      by_cases hr : (processFunctionCall doc (B ++ c)).result.isEmpty
      · simp only [hr, if_pos rfl]
        rw [gemmaLoop]
      · simp only [hr]
        rw [if_neg (by simp [hr]), if_neg (by simp [hr])]
    | cons c2 ls =>
      have hT : B ++ concatAll (c :: c2 :: ls) = (B ++ c) ++ concatAll (c2 :: ls) := by
        rw [concatAll_cons, List.append_assoc]
      have hQne : concatAll (c2 :: ls) ≠ [] :=
        concatAll_ne_nil (c2 :: ls) (by simp)
          (fun f hf => hne f (List.mem_cons_of_mem c hf))
      have hpos : 0 < braceCount (B ++ c) := by
        refine balanced_prefix_pos (B ++ concatAll (c :: c2 :: ls)) (B ++ c)
          (concatAll (c2 :: ls)) hbal ?_ ?_ hQne
        · rw [hT]
        · intro hcontra
          rcases List.append_eq_nil.mp hcontra with ⟨h1, _⟩
          exact hB h1
      have hcl : gemmaClassify true B c = .acc (B ++ c) := by
        unfold gemmaClassify
        simp [hc, show braceCount (B ++ c) ≠ 0 from by omega]
      rw [gemmaLoop, hcl]
      simp only
      have ih := gemma_balanced_accum doc resume errR hist (c2 :: ls) (B ++ c) (by simp)
        (fun f hf => hne f (List.mem_cons_of_mem c hf))
        (by
          intro hcontra
          rcases List.append_eq_nil.mp hcontra with ⟨h1, _⟩
          exact hB h1)
        (by rw [← hT]; exact hbal)
      simp only [ih, hT]

theorem gemma_split_invariance (doc : J → List Char) (resume : List (List Char)) (errR : Bool)
    (hist : List ChatMsg) (T : List Char) (frags : List (List Char)) (hbal : balancedObj T)
    (hfr : frags ≠ []) (hne : ∀ f ∈ frags, f.isEmpty = false) (hcat : concatAll frags = T) :
    gemmaLoop doc resume errR hist false [] frags = gemmaLoop doc resume errR hist false [] [T] := by
  cases frags with
  | nil => exact absurd rfl hfr
  | cons f rest =>
    have hf := hne f (List.mem_cons_self f rest)
    have hfne : f ≠ [] := ne_nil_of_isEmpty_false hf
    have hfhead : f.head? = some '{' := by
      have := hbal.1
      rw [← hcat, concatAll_cons, head?_append_left f (concatAll rest) hfne] at this
      exact this
    cases rest with
    | nil =>
      have : f = T := by
        rw [← hcat]
        simp [concatAll]
      rw [this]
    | cons r2 rs =>
      have hQne : concatAll (r2 :: rs) ≠ [] :=
        concatAll_ne_nil (r2 :: rs) (by simp)
          (fun g hg => hne g (List.mem_cons_of_mem f hg))
      have hpos : 0 < braceCount f := by
        refine balanced_prefix_pos T f (concatAll (r2 :: rs)) hbal ?_ hfne hQne
        rw [← hcat, concatAll_cons]
      have hcl : gemmaClassify false [] f = .acc f := by
        unfold gemmaClassify
        simp [hf, hasOpenBrace_of_head f hfhead, show braceCount f ≠ 0 from by omega]
      rw [gemmaLoop, hcl]
      simp only
      have haccum := gemma_balanced_accum doc resume errR hist (r2 :: rs) f (by simp)
        (fun g hg => hne g (List.mem_cons_of_mem f hg)) hfne
        (by rw [← concatAll_cons, hcat]; exact hbal)
      simp only [haccum]
      have hTeq : f ++ concatAll (r2 :: rs) = T := by rw [← concatAll_cons, hcat]
      rw [hTeq]
      rw [gemmaLoop_single_complete doc resume errR hist T
        (isEmpty_false_of_head T hbal.1) (hasOpenBrace_of_head T hbal.1) hbal.2.1]

theorem gemma_completion_at (doc : J → List Char) (resume : List (List Char)) (errR : Bool)
    (hist : List ChatMsg) :
    ∀ (k : Nat) (cs : List (List Char)) (B : List Char),
      (∀ f ∈ cs, f.isEmpty = false) →
      k < cs.length →
      braceCount (B ++ concatAll (cs.take (k + 1))) = 0 →
      (∀ j, j < k → braceCount (B ++ concatAll (cs.take (j + 1))) ≠ 0) →
      gemmaLoop doc resume errR hist true B cs =
        (if (processFunctionCall doc (B ++ concatAll (cs.take (k + 1)))).result.isEmpty
         then gemmaLoop doc resume errR hist false [] (cs.drop (k + 1))
         else ⟨[], resumeOut resume errR,
               (processFunctionCall doc (B ++ concatAll (cs.take (k + 1)))).queries,
               hist ++ callMsgs (B ++ concatAll (cs.take (k + 1)))
                 (processFunctionCall doc (B ++ concatAll (cs.take (k + 1)))).result, true⟩)
  | 0, [], B => by intro _ hk; simp at hk
  | 0, c :: rest, B => by
    intro hne _ hz _
    have hc := hne c (List.mem_cons_self c rest)
    have hT : B ++ concatAll ((c :: rest).take 1) = B ++ c := by
      simp [concatAll]
    rw [hT] at hz ⊢
    have hcl : gemmaClassify true B c = .complete (B ++ c) := by
      unfold gemmaClassify
      simp [hc, hz]
    rw [gemmaLoop, hcl]
    simp only [List.drop_succ_cons, List.drop_zero]
  | k + 1, [], B => by intro _ hk; simp at hk
  | k + 1, c :: rest, B => by
    intro hne hk hz hpos
    have hc := hne c (List.mem_cons_self c rest)
    have h0 : braceCount (B ++ c) ≠ 0 := by
      have := hpos 0 (by omega)
      simpa [concatAll] using this
    have hcl : gemmaClassify true B c = .acc (B ++ c) := by
      unfold gemmaClassify
      simp [hc, h0]
    have hshift : ∀ m : Nat, B ++ concatAll ((c :: rest).take (m + 1)) =
        (B ++ c) ++ concatAll (rest.take m) := by
      intro m
      rw [List.take_succ_cons, concatAll_cons, List.append_assoc]
    have ih := gemma_completion_at doc resume errR hist k rest (B ++ c)
      (fun f hf => hne f (List.mem_cons_of_mem c hf))
      (by simpa using Nat.lt_of_succ_lt_succ hk)
      (by rw [← hshift (k + 1)]; exact hz)
      (by
        intro j hj
        rw [← hshift (j + 1)]
        exact hpos (j + 1) (by omega))
    rw [gemmaLoop, hcl]
    simp only
    rw [ih]
    rw [← hshift (k + 1), List.drop_succ_cons]

/-! ## Lemmas for `normalize_collection_name` -/

theorem dropWhile_head_not (p : Char → Bool) :
    ∀ (l : List Char) (x : Char), (l.dropWhile p).head? = some x → p x = false
  | [], x => by intro h; simp at h
  | c :: rest, x => by
    intro h
    by_cases hc : p c
    · rw [List.dropWhile_cons_of_pos hc] at h
      exact dropWhile_head_not p rest x h
    · rw [List.dropWhile_cons_of_neg hc] at h
      simp at h
      subst h
      simpa using hc

theorem dropWhile_decomp (p : Char → Bool) :
    ∀ l : List Char, ∃ t, l = t ++ l.dropWhile p
  | [] => ⟨[], rfl⟩
  | c :: rest => by
    by_cases hc : p c
    · obtain ⟨t, ht⟩ := dropWhile_decomp p rest
      exact ⟨c :: t, by rw [List.dropWhile_cons_of_pos hc, List.cons_append, ← ht]⟩
    · exact ⟨[], by rw [List.dropWhile_cons_of_neg hc]; rfl⟩

theorem noDouble_tail {a : Char} {l : List Char} (h : noDoubleUnders (a :: l) = true) :
    noDoubleUnders l = true := by
  cases l with
  | nil => rfl
  | cons b rest =>
    rw [noDoubleUnders] at h
    exact (Bool.and_eq_true_iff.mp h).2

theorem noDouble_append_right {y : List Char} :
    ∀ x : List Char, noDoubleUnders (x ++ y) = true → noDoubleUnders y = true
  | [] => fun h => h
  | a :: x' => fun h => noDouble_append_right x' (noDouble_tail h)

theorem noDouble_append_left {y : List Char} :
    ∀ x : List Char, noDoubleUnders (x ++ y) = true → noDoubleUnders x = true
  | [] => fun _ => rfl
  | [a] => fun _ => rfl
  | a :: b :: x' => by
    intro h
    rw [List.cons_append, List.cons_append, noDoubleUnders] at h
    obtain ⟨h1, h2⟩ := Bool.and_eq_true_iff.mp h
    have ih := noDouble_append_left (b :: x') (by rwa [List.cons_append])
    rw [noDoubleUnders, h1]
    simpa using ih

theorem noDouble_head_after {l : List Char} (h : noDoubleUnders ('_' :: l) = true) :
    l.head? ≠ some '_' := by
  cases l with
  | nil => simp
  | cons b rest =>
    rw [noDoubleUnders] at h
    obtain ⟨h1, _⟩ := Bool.and_eq_true_iff.mp h
    simp at h1 ⊢
    exact h1

theorem noDouble_cons_ne {a : Char} {l : List Char} (ha : a ≠ '_')
    (h : noDoubleUnders l = true) : noDoubleUnders (a :: l) = true := by
  cases l with
  | nil => rfl
  | cons b rest =>
    rw [noDoubleUnders]
    rw [Bool.and_eq_true_iff]
    exact ⟨by simp [ha], h⟩

theorem noDouble_cons_underscore {l : List Char} (hh : l.head? ≠ some '_')
    (h : noDoubleUnders l = true) : noDoubleUnders ('_' :: l) = true := by
  cases l with
  | nil => rfl
  | cons b rest =>
    rw [noDoubleUnders]
    rw [Bool.and_eq_true_iff]
    refine ⟨?_, h⟩
    simp at hh ⊢
    exact hh

theorem lower_shift_bounds (c : Char) (h1 : 'A' ≤ c) (h2 : c ≤ 'Z') :
    'a' ≤ Char.ofNat (c.toNat + 32) ∧ Char.ofNat (c.toNat + 32) ≤ 'z' := by
  rw [Char.le_def] at h1 h2
  have hv1 : 65 ≤ c.toNat := by simpa [Char.toNat] using h1
  have hv2 : c.toNat ≤ 90 := by simpa [Char.toNat] using h2
  have hvalid : Nat.isValidChar (c.toNat + 32) := by left; omega
  have key : (Char.ofNat (c.toNat + 32)).toNat = c.toNat + 32 := by
    unfold Char.ofNat
    rw [dif_pos hvalid]
    rfl
  have key' : (Char.ofNat (c.toNat + 32)).val.toBitVec.toNat = c.toNat + 32 := key
  constructor
  · rw [Char.le_def, UInt32.le_def, BitVec.le_def]
    have : ('a' : Char).val.toBitVec.toNat = 97 := by decide
    omega
  · rw [Char.le_def, UInt32.le_def, BitVec.le_def]
    have : ('z' : Char).val.toBitVec.toNat = 122 := by decide
    omega

theorem lowerChar_goodChar (c : Char) (h : isAlnumC (lowerChar c) = true) :
    goodChar (lowerChar c) = true := by
  unfold lowerChar at h ⊢
  split_ifs at h ⊢ with hup
  · obtain ⟨hb1, hb2⟩ := lower_shift_bounds c hup.1 hup.2
    simp [goodChar]
    exact Or.inl (Or.inl ⟨hb1, hb2⟩)
  · simp [isAlnumC] at h
    simp [goodChar]
    rcases h with (h | h) | h
    · exact Or.inl (Or.inl h)
    · exact absurd h hup
    · exact Or.inl (Or.inr h)

theorem goodChar_fix_lower (c : Char) (h : goodChar c = true) : lowerChar c = c := by
  unfold lowerChar
  rw [if_neg]
  intro hup
  simp [goodChar] at h
  rcases h with (h | h) | h
  · have : ('a' : Char) ≤ 'Z' := le_trans h.1 hup.2
    exact absurd this (by decide)
  · have : ('A' : Char) ≤ '9' := le_trans hup.1 h.2
    exact absurd this (by decide)
  · subst h
    exact absurd hup.2 (by decide)

theorem goodChar_nonalnum (c : Char) (hg : goodChar c = true) (ha : isAlnumC c = false) :
    c = '_' := by
  simp [goodChar] at hg
  simp [isAlnumC] at ha
  obtain ⟨⟨ha1, _⟩, ha3⟩ := ha
  rcases hg with (h | h) | h
  · exact absurd (ha1 h.1) (not_lt.mpr h.2)
  · exact absurd (ha3 h.1) (not_lt.mpr h.2)
  · exact h

theorem alnum_ne_underscore (c : Char) (h : isAlnumC c = true) : c ≠ '_' := by
  intro hc
  subst hc
  have hf : isAlnumC '_' = false := by decide
  simp [hf] at h

theorem subAux_mem : ∀ (l : List Char) (prev : Bool) (x : Char),
    x ∈ subNonAlnumAux prev l → (isAlnumC x = true ∧ x ∈ l) ∨ x = '_'
  | [], prev, x => by intro h; simp [subNonAlnumAux] at h
  | c :: rest, prev, x => by
    intro h
    rw [subNonAlnumAux] at h
    by_cases hc : isAlnumC c
    · rw [if_pos hc] at h
      rcases List.mem_cons.mp h with rfl | h'
      · exact Or.inl ⟨hc, List.mem_cons_self _ _⟩
      · rcases subAux_mem rest false x h' with ⟨h1, h2⟩ | h1
        · exact Or.inl ⟨h1, List.mem_cons_of_mem c h2⟩
        · exact Or.inr h1
    · rw [if_neg hc] at h
      by_cases hp : prev = true
      · rw [if_pos hp] at h
        rcases subAux_mem rest true x h with ⟨h1, h2⟩ | h1
        · exact Or.inl ⟨h1, List.mem_cons_of_mem c h2⟩
        · exact Or.inr h1
      · rw [if_neg hp] at h
        rcases List.mem_cons.mp h with rfl | h'
        · exact Or.inr rfl
        · rcases subAux_mem rest true x h' with ⟨h1, h2⟩ | h1
          · exact Or.inl ⟨h1, List.mem_cons_of_mem c h2⟩
          · exact Or.inr h1

theorem subAux_noDouble : ∀ (l : List Char) (prev : Bool),
    noDoubleUnders (subNonAlnumAux prev l) = true ∧
      (prev = true → (subNonAlnumAux prev l).head? ≠ some '_')
  | [], prev => by
    refine ⟨rfl, ?_⟩
    intro _
    simp [subNonAlnumAux]
  | c :: rest, prev => by
    rw [subNonAlnumAux]
    by_cases hc : isAlnumC c
    · rw [if_pos hc]
      refine ⟨noDouble_cons_ne (alnum_ne_underscore c hc) (subAux_noDouble rest false).1, ?_⟩
      intro _
      simpa using (alnum_ne_underscore c hc)
    · rw [if_neg hc]
      by_cases hp : prev = true
      · rw [if_pos hp]
        exact ⟨(subAux_noDouble rest true).1, fun _ => (subAux_noDouble rest true).2 rfl⟩
      · rw [if_neg hp]
        refine ⟨noDouble_cons_underscore ((subAux_noDouble rest true).2 rfl)
          (subAux_noDouble rest true).1, ?_⟩
        intro hcontra
        exact absurd hcontra hp

theorem subAux_id : ∀ (l : List Char) (prev : Bool), l.all goodChar = true →
    noDoubleUnders l = true → (prev = true → l.head? ≠ some '_') →
    subNonAlnumAux prev l = l
  | [], prev => by intro _ _ _; rfl
  | c :: rest, prev => by
    intro hall hnd hh
    have hc : goodChar c = true := by
      rw [List.all_eq_true] at hall
      exact hall c (List.mem_cons_self c rest)
    have hrest : rest.all goodChar = true := by
      rw [List.all_eq_true] at hall ⊢
      exact fun x hx => hall x (List.mem_cons_of_mem c hx)
    rw [subNonAlnumAux]
    by_cases ha : isAlnumC c
    · rw [if_pos ha]
      rw [subAux_id rest false hrest (noDouble_tail hnd) (by simp)]
    · rw [if_neg ha]
      have hu : c = '_' := goodChar_nonalnum c hc (by simpa using ha)
      subst hu
      have hp : prev = false := by
        by_contra hcontra
        have : prev = true := by revert hcontra; cases prev <;> simp
        exact hh this (by simp)
      subst hp
      rw [if_neg (by simp)]
      rw [subAux_id rest true hrest (noDouble_tail hnd)
        (fun _ => noDouble_head_after hnd)]

theorem collapseAux_id : ∀ (l : List Char) (prev : Bool), noDoubleUnders l = true →
    (prev = true → l.head? ≠ some '_') → collapseUndersAux prev l = l
  | [], prev => by intro _ _; rfl
  | c :: rest, prev => by
    intro hnd hh
    rw [collapseUndersAux]
    by_cases hc : c = '_'
    · subst hc
      have hp : prev = false := by
        by_contra hcontra
        have : prev = true := by revert hcontra; cases prev <;> simp
        exact hh this (by simp)
      subst hp
      rw [if_pos rfl, if_neg (by simp)]
      rw [collapseAux_id rest true (noDouble_tail hnd) (fun _ => noDouble_head_after hnd)]
    · rw [if_neg hc]
      rw [collapseAux_id rest false (noDouble_tail hnd) (by simp)]

theorem lowerStr_id : ∀ l : List Char, l.all goodChar = true → lowerStr l = l
  | [] => by intro _; rfl
  | c :: rest => by
    intro hall
    rw [List.all_cons, Bool.and_eq_true_iff] at hall
    rw [lowerStr, List.map_cons, goodChar_fix_lower c hall.1]
    have := lowerStr_id rest hall.2
    rw [lowerStr] at this
    rw [this]

theorem dropWhile_id_head (p : Char → Bool) (l : List Char)
    (h : ∀ x, l.head? = some x → p x = false) : l.dropWhile p = l := by
  cases l with
  | nil => rfl
  | cons c rest =>
    exact List.dropWhile_cons_of_neg (by simp [h c rfl])

theorem strip_id (l : List Char) (hh : l.head? ≠ some '_') (hl : l.getLast? ≠ some '_') :
    stripUnders l = l := by
  unfold stripUnders
  rw [dropWhile_id_head _ l (by
    intro x hx
    by_contra hcontra
    simp at hcontra
    subst hcontra
    exact hh hx)]
  rw [dropWhile_id_head _ l.reverse (by
    intro x hx
    rw [List.head?_reverse] at hx
    by_contra hcontra
    simp at hcontra
    subst hcontra
    exact hl hx)]
  exact List.reverse_reverse l


theorem rstrip_facts (m : List Char) (hall : m.all goodChar = true)
    (hnd : noDoubleUnders m = true) (hh : m.head? ≠ some '_') :
    ((m.reverse.dropWhile (fun c => c == '_')).reverse.all goodChar = true) ∧
    noDoubleUnders (m.reverse.dropWhile (fun c => c == '_')).reverse = true ∧
    (m.reverse.dropWhile (fun c => c == '_')).reverse.head? ≠ some '_' ∧
    (m.reverse.dropWhile (fun c => c == '_')).reverse.getLast? ≠ some '_' := by
  obtain ⟨t2, ht2⟩ := dropWhile_decomp (fun c => c == '_') m.reverse
  have hm2 : m = (m.reverse.dropWhile (fun c => c == '_')).reverse ++ t2.reverse := by
    have := congrArg List.reverse ht2
    rw [List.reverse_reverse, List.reverse_append] at this
    exact this
  refine ⟨?_, ?_, ?_, ?_⟩
  · have := hall
    rw [hm2, List.all_append, Bool.and_eq_true_iff] at this
    exact this.1
  · have := hnd
    rw [hm2] at this
    exact noDouble_append_left _ this
  · intro hcontra
    have hne : (m.reverse.dropWhile (fun c => c == '_')).reverse ≠ [] := by
      intro h0
      rw [h0] at hcontra
      simp at hcontra
    have hhead : m.head? = (m.reverse.dropWhile (fun c => c == '_')).reverse.head? := by
      conv_lhs => rw [hm2]
      exact head?_append_left _ _ hne
    rw [← hhead] at hcontra
    exact hh hcontra
  · rw [List.getLast?_reverse]
    intro hcontra
    have := dropWhile_head_not (fun c => c == '_') m.reverse '_' hcontra
    simp at this

theorem stripUnders_facts (v : List Char) (hall : v.all goodChar = true)
    (hnd : noDoubleUnders v = true) :
    (stripUnders v).all goodChar = true ∧ noDoubleUnders (stripUnders v) = true ∧
    (stripUnders v).head? ≠ some '_' ∧ (stripUnders v).getLast? ≠ some '_' := by
  obtain ⟨t1, ht1⟩ := dropWhile_decomp (fun c => c == '_') v
  have hmAll : (v.dropWhile (fun c => c == '_')).all goodChar = true := by
    have := hall
    rw [ht1, List.all_append, Bool.and_eq_true_iff] at this
    exact this.2
  have hmND : noDoubleUnders (v.dropWhile (fun c => c == '_')) = true := by
    have := hnd
    rw [ht1] at this
    exact noDouble_append_right t1 this
  have hmH : (v.dropWhile (fun c => c == '_')).head? ≠ some '_' := by
    intro hcontra
    have := dropWhile_head_not (fun c => c == '_') v '_' hcontra
    simp at this
  exact rstrip_facts (v.dropWhile (fun c => c == '_')) hmAll hmND hmH

theorem normalize_props (s : List Char) :
    (normalize_collection_name s).all goodChar = true ∧
    noDoubleUnders (normalize_collection_name s) = true ∧
    (normalize_collection_name s).head? ≠ some '_' ∧
    (normalize_collection_name s).getLast? ≠ some '_' := by
  have hvAll : (subNonAlnum (lowerStr s)).all goodChar = true := by
    rw [List.all_eq_true]
    intro x hx
    rcases subAux_mem (lowerStr s) false x hx with ⟨h1, h2⟩ | h1
    · rcases List.mem_map.mp h2 with ⟨d, _, rfl⟩
      exact lowerChar_goodChar d h1
    · subst h1
      decide
  have hvND : noDoubleUnders (subNonAlnum (lowerStr s)) = true :=
    (subAux_noDouble (lowerStr s) false).1
  have hcoll : collapseUnders (subNonAlnum (lowerStr s)) = subNonAlnum (lowerStr s) :=
    collapseAux_id (subNonAlnum (lowerStr s)) false hvND (by simp)
  have hnorm : normalize_collection_name s = stripUnders (subNonAlnum (lowerStr s)) := by
    unfold normalize_collection_name
    rw [hcoll]
  rw [hnorm]
  exact stripUnders_facts _ hvAll hvND

theorem normalize_idem_aux (s : List Char) :
    normalize_collection_name (normalize_collection_name s) = normalize_collection_name s := by
  obtain ⟨hall, hnd, hh, hl⟩ := normalize_props s
  have h1 : lowerStr (normalize_collection_name s) = normalize_collection_name s :=
    lowerStr_id _ hall
  have h2 : subNonAlnum (normalize_collection_name s) = normalize_collection_name s := by
    unfold subNonAlnum
    exact subAux_id _ false hall hnd (by simp)
  have h3 : collapseUnders (normalize_collection_name s) = normalize_collection_name s :=
    collapseAux_id _ false hnd (by simp)
  have h4 : stripUnders (normalize_collection_name s) = normalize_collection_name s :=
    strip_id _ hh hl
  conv_lhs => rw [normalize_collection_name]
  rw [h1, h2, h3, h4]

/-! ## Claim theorems -/

/-- C1 (counterexample): the fragments of the resumed (post-tool-call) stream
are forwarded to the caller unfiltered, so an output fragment can contain a
complete structured tool-call payload, contradicting the claim that every
yielded fragment is free of tool-call syntax.  Here the original stream makes
a call and the resumed stream emits a tool-call payload verbatim. -/
theorem claim1_resumed_stream_unfiltered_cex :
    (processGemmaChat (fun _ => []) ["\x7b\"name\": \"f\"\x7d".toList] false
      ["\x7b\"name\": \"f\"\x7d".toList] false []).output =
      ["\x7b\"name\": \"f\"\x7d".toList] ∧
    hasOpenBrace "\x7b\"name\": \"f\"\x7d".toList = true := by
  exact ⟨rfl, rfl⟩

/-- C1 (amended): every fragment yielded from the original stream contains no
opening brace (hence no part of a buffered or detected tool-call payload: any
such payload begins at an opening brace and is diverted to the buffer), and
the yielded original-stream fragments form a subsequence of the input
fragments; fragments of a resumed stream, however, are forwarded unfiltered. -/
theorem claim1_original_stream_brace_free (doc : J → List Char) (frags : List (List Char))
    (errP : Bool) (resume : List (List Char)) (errR : Bool) (hist : List ChatMsg) :
    (∀ f ∈ (processGemmaChat doc frags errP resume errR hist).outPre, hasOpenBrace f = false) ∧
    List.Sublist (processGemmaChat doc frags errP resume errR hist).outPre frags ∧
    ((processGemmaChat doc frags errP resume errR hist).resumed = true →
      (processGemmaChat doc frags errP resume errR hist).outPost = resumeOut resume errR) := by
  refine ⟨?_, ?_, ?_⟩
  · rw [processGemmaChat_outPre]
    exact gemmaLoop_outPre_noBrace doc resume errR frags hist false []
  · rw [processGemmaChat_outPre]
    exact gemmaLoop_outPre_sublist doc resume errR frags hist false []
  · intro h
    rw [processGemmaChat_resumed] at h
    have hpost := gemmaLoop_outPost_eq doc resume errR frags hist false []
    rw [h, if_pos rfl] at hpost
    unfold processGemmaChat
    simp only [h, if_true]
    exact hpost

/-- C1 (witness): instance of the amended theorem on a concrete run with one
passthrough fragment, one tool-call fragment and a resumed stream. -/
theorem claim1_witness :
    hasOpenBrace "a".toList = false ∧
    (processGemmaChat (fun _ => []) ["a".toList, "\x7b\"name\": \"g\"\x7d".toList] false
      ["ok".toList] false []).outPost = resumeOut ["ok".toList] false :=
  ⟨(claim1_original_stream_brace_free (fun _ => [])
      ["a".toList, "\x7b\"name\": \"g\"\x7d".toList] false ["ok".toList] false []).1
    "a".toList (by decide),
   (claim1_original_stream_brace_free (fun _ => [])
      ["a".toList, "\x7b\"name\": \"g\"\x7d".toList] false ["ok".toList] false []).2.2
    (by decide)⟩

/-- C2 (counterexample): a buffer whose braces balance but whose JSON is
malformed (trailing comma) does not send the extractor back to passthrough:
the subsequent fragment `hi` of the same stream is dropped, not forwarded,
because the nonempty error-result string triggers the resume path. -/
theorem claim2_malformed_resumes_cex :
    (processGemmaChat (fun _ => []) ["\x7b\"a\":1,\x7d".toList, "hi".toList] false
      [] false []).output = [] ∧
    (processGemmaChat (fun _ => []) ["\x7b\"a\":1,\x7d".toList, "hi".toList] false
      [] false []).queries = [] ∧
    (processGemmaChat (fun _ => []) ["\x7b\"a\":1,\x7d".toList, "hi".toList] false
      [] false []).resumed = true := by
  exact ⟨rfl, rfl, rfl⟩

/-- C2 (amended): when the accumulated buffer reaches a zero brace count but
its extracted JSON does not parse, no capability is invoked, the buffered text
is discarded (nothing of it is forwarded), and the extractor produces the
recoverable error string `Error: Invalid function call format` — but instead
of returning to passthrough it records the error string as a function result
and proceeds to the resume step, dropping the remaining fragments of the
original stream. -/
theorem claim2_malformed_no_invocation (doc : J → List Char) (resume : List (List Char))
    (errR : Bool) (hist : List ChatMsg) (B c : List Char) (rest : List (List Char))
    (ex : List Char) (hne : c.isEmpty = false) (hz : braceCount (B ++ c) = 0)
    (hex : extractJson (B ++ c) = some ex)
    (hparse : jsonLoads (pyStrip (collapseWs ex)) = none) :
    gemmaLoop doc resume errR hist true B (c :: rest) =
      ⟨[], resumeOut resume errR, [], hist ++ callMsgs (B ++ c) errInvalid, true⟩ := by
  have hcl : gemmaClassify true B c = .complete (B ++ c) := by
    unfold gemmaClassify
    simp [hne, hz]
  have hfc := processFunctionCall_parse_fail doc (B ++ c) ex hex hparse
  rw [gemmaLoop, hcl]
  simp only [hfc]
  rw [if_neg (by simp [errInvalid_ne_nil])]

/-- C2 (witness): instance of the amended theorem on a buffer split as
`\x7b"a":1,` plus `\x7d` with a further fragment `hi` pending. -/
theorem claim2_witness :
    gemmaLoop (fun _ => []) [] false [] true "\x7b\"a\":1,".toList
      ["\x7d".toList, "hi".toList] =
      ⟨[], resumeOut [] false, [],
        [] ++ callMsgs ("\x7b\"a\":1,".toList ++ "\x7d".toList) errInvalid, true⟩ :=
  claim2_malformed_no_invocation (fun _ => []) [] false [] "\x7b\"a\":1,".toList
    "\x7d".toList ["hi".toList] "\x7b\"a\":1,\x7d".toList rfl (by decide) rfl rfl

/-- C3: splitting a complete tool-call text `T` (opening brace first, every
proper prefix brace-positive, total brace count zero) into any number of
nonempty fragments yields exactly the run of the single-fragment stream `[T]`:
the same buffer is handed to `process_function_call`, so the detected JSON,
the invoked capability and its parameters are identical.  Moreover, when
several JSON objects are concatenated in one buffer, `process_function_call`
uses only the first complete one: trailing content after a balanced object is
discarded. -/
theorem claim3_fragment_invariance (doc : J → List Char) (resume : List (List Char))
    (errR : Bool) (hist : List ChatMsg) (T O R : List Char) (frags : List (List Char)) :
    (balancedObj T → frags ≠ [] → (∀ f ∈ frags, f.isEmpty = false) → concatAll frags = T →
      gemmaLoop doc resume errR hist false [] frags =
        gemmaLoop doc resume errR hist false [] [T]) ∧
    (balancedObj O → processFunctionCall doc (O ++ R) = processFunctionCall doc O) :=
  ⟨fun h1 h2 h3 h4 => gemma_split_invariance doc resume errR hist T frags h1 h2 h3 h4,
   fun h => processFunctionCall_first_object doc O R h⟩

/-- C3 (witness): the payload `\x7b"a": \x7b\x7d\x7d` split into two fragments
runs identically to the unsplit stream, and a balanced object followed by
trailing junk is processed like the object alone. -/
theorem claim3_witness :
    gemmaLoop (fun _ => []) [] false [] false []
        ["\x7b\"a\"".toList, ": \x7b\x7d\x7d".toList] =
      gemmaLoop (fun _ => []) [] false [] false [] ["\x7b\"a\": \x7b\x7d\x7d".toList] ∧
    processFunctionCall (fun _ => []) ("\x7b\x7d".toList ++ "junk".toList) =
      processFunctionCall (fun _ => []) "\x7b\x7d".toList :=
  ⟨(claim3_fragment_invariance (fun _ => []) [] false [] "\x7b\"a\": \x7b\x7d\x7d".toList
      "\x7b\x7d".toList "junk".toList
      ["\x7b\"a\"".toList, ": \x7b\x7d\x7d".toList]).1
    (by decide) (by decide) (by decide) rfl,
   (claim3_fragment_invariance (fun _ => []) [] false [] "\x7b\"a\": \x7b\x7d\x7d".toList
      "\x7b\x7d".toList "junk".toList
      ["\x7b\"a\"".toList, ": \x7b\x7d\x7d".toList]).2
    (by decide)⟩

/-- C4 (counterexample): the claim says depth increments on `[` as well as on
an opening brace; the gemma extractor counts only braces.  On the fragment
`\x7b[\x7d` the spec-side depth (counting brackets) is 1, yet the extractor
signals completion (its brace count is 0) and proceeds to process the buffer
and resume. -/
theorem claim4_bracket_depth_cex :
    braceCount "\x7b[\x7d".toList = 0 ∧ specDepth "\x7b[\x7d".toList ≠ 0 ∧
    (processGemmaChat (fun _ => []) ["\x7b[\x7d".toList] false [] false []).resumed = true := by
  exact ⟨rfl, by decide, rfl⟩

/-- C4 (amended): the gemma extractor tracks only `\x7b`/`\x7d` (square
brackets are ignored), sums the count over the whole buffer, and checks it at
fragment boundaries: in the accumulating state with buffer `B`, completion is
processed exactly at the first fragment index `k` at which the cumulative
brace count of the buffer is zero.  The mistral filter symmetrically tracks
only `[`/`]`: its in-JSON state exits exactly when the cumulative bracket
count falls to zero or below. -/
theorem claim4_brace_only_completion (doc : J → List Char) (resume : List (List Char))
    (errR : Bool) (hist : List ChatMsg) (k : Nat) (cs : List (List Char)) (B : List Char)
    (b : Int) (c : List Char) :
    ((∀ f ∈ cs, f.isEmpty = false) → k < cs.length →
      braceCount (B ++ concatAll (cs.take (k + 1))) = 0 →
      (∀ j, j < k → braceCount (B ++ concatAll (cs.take (j + 1))) ≠ 0) →
      gemmaLoop doc resume errR hist true B cs =
        (if (processFunctionCall doc (B ++ concatAll (cs.take (k + 1)))).result.isEmpty
         then gemmaLoop doc resume errR hist false [] (cs.drop (k + 1))
         else ⟨[], resumeOut resume errR,
               (processFunctionCall doc (B ++ concatAll (cs.take (k + 1)))).queries,
               hist ++ callMsgs (B ++ concatAll (cs.take (k + 1)))
                 (processFunctionCall doc (B ++ concatAll (cs.take (k + 1)))).result, true⟩)) ∧
    (((mistralStep ⟨true, b⟩ c).1.inJson = false) ↔ b + brkCount c ≤ 0) :=
  ⟨fun h1 h2 h3 h4 => gemma_completion_at doc resume errR hist k cs B h1 h2 h3 h4,
   mistralStep_exit_iff b c⟩

/-- C4 (witness): instance of the amended theorem: a buffer `\x7b` completed
by the fragment `\x7d` at index 0, and a mistral exit step on `]`. -/
theorem claim4_witness :
    (gemmaLoop (fun _ => []) [] false [] true "\x7b".toList ["\x7d".toList] =
      (if (processFunctionCall (fun _ => [])
            ("\x7b".toList ++ concatAll (["\x7d".toList].take (0 + 1)))).result.isEmpty
       then gemmaLoop (fun _ => []) [] false [] false [] (["\x7d".toList].drop (0 + 1))
       else ⟨[], resumeOut [] false,
             (processFunctionCall (fun _ => [])
               ("\x7b".toList ++ concatAll (["\x7d".toList].take (0 + 1)))).queries,
             [] ++ callMsgs ("\x7b".toList ++ concatAll (["\x7d".toList].take (0 + 1)))
               (processFunctionCall (fun _ => [])
                 ("\x7b".toList ++ concatAll (["\x7d".toList].take (0 + 1)))).result, true⟩)) ∧
    (((mistralStep ⟨true, 1⟩ "]".toList).1.inJson = false) ↔ 1 + brkCount "]".toList ≤ 0) :=
  ⟨(claim4_brace_only_completion (fun _ => []) [] false [] 0 ["\x7d".toList] "\x7b".toList
      1 "]".toList).1 (by decide) (by decide) (by decide) (by decide),
   (claim4_brace_only_completion (fun _ => []) [] false [] 0 ["\x7d".toList] "\x7b".toList
      1 "]".toList).2⟩

/-- C5 (counterexample): the mistral filter drops fragments that contain no
`\x7b` or `[` at all: a fragment consisting of `\x7d` matches the stripped
tool-call-indicator test and is not forwarded, contradicting the claim that
every such fragment is forwarded unchanged. -/
theorem claim5_mistral_drops_cex :
    (hasOpenBrace "\x7d".toList = false ∧ hasOpenBracket "\x7d".toList = false) ∧
    mistralRun mInit ["\x7d".toList] = [] := by
  exact ⟨⟨rfl, rfl⟩, rfl⟩

/-- C5 (amended): the gemma extractor forwards every nonempty fragment
containing no opening brace unchanged and in order, with no capability
invocation and no history change; the mistral filter does the same only for
fragments that additionally match none of its tool-call indicators (the
substrings `"name":`, `"arguments":`, `get_documentation`, `get_weather`, or a
strip to one of `\x7b`, `\x7d`, `"]`, `"\x7d`) and do not strip to empty. -/
theorem claim5_passthrough (doc : J → List Char) (resume : List (List Char)) (errR : Bool)
    (hist : List ChatMsg) (frags : List (List Char)) :
    ((∀ f ∈ frags, f.isEmpty = false ∧ hasOpenBrace f = false) →
      processGemmaChat doc frags false resume errR hist = ⟨frags, [], [], hist, false⟩) ∧
    ((∀ f ∈ frags, (pyStrip f).isEmpty = false ∧ hasOpenBracket f = false ∧
        mistralIndicator f = false) →
      mistralRun mInit frags = frags) := by
  constructor
  · intro h
    unfold processGemmaChat
    rw [gemmaLoop_passthrough doc resume errR frags hist h]
    simp
  · exact mistralRun_passthrough frags

/-- C5 (witness): a two-fragment brace- and bracket-free stream passes through
both extractors unchanged with no invocation. -/
theorem claim5_witness :
    processGemmaChat (fun _ => []) ["hello ".toList, "world".toList] false [] false [] =
      ⟨["hello ".toList, "world".toList], [], [], [], false⟩ ∧
    mistralRun mInit ["hello ".toList, "world".toList] = ["hello ".toList, "world".toList] :=
  ⟨(claim5_passthrough (fun _ => []) [] false [] ["hello ".toList, "world".toList]).1
    (by decide),
   (claim5_passthrough (fun _ => []) [] false [] ["hello ".toList, "world".toList]).2
    (by decide)⟩

/-- C6: a completed buffer that parses but names an unknown capability
produces the nonempty result string `Error: Unknown function '<name>'`, with
zero capability invocations; the error string is appended to the conversation
history as the function result, and the extractor proceeds to the resume step
(`resumed = true`), so a capability failure never aborts the turn. -/
theorem claim6_unknown_capability (doc : J → List Char) (resume : List (List Char))
    (errR : Bool) (hist : List ChatMsg) (c : List Char) (rest : List (List Char))
    (ex : List Char) (fields : List (List Char × J)) (n : List Char)
    (hne : c.isEmpty = false) (hbr : hasOpenBrace c = true) (hz : braceCount c = 0)
    (hex : extractJson c = some ex)
    (hparse : jsonLoads (pyStrip (collapseWs ex)) = some (J.obj fields))
    (hname : dictGet fields nameKey = some (J.str n))
    (hnot : n ≠ getDocName) :
    processFunctionCall doc c = ⟨errUnknown n, []⟩ ∧
    gemmaLoop doc resume errR hist false [] (c :: rest) =
      ⟨[], resumeOut resume errR, [], hist ++ callMsgs c (errUnknown n), true⟩ := by
  have hfc := processFunctionCall_unknown doc c ex fields n hex hparse hname hnot
  refine ⟨hfc, ?_⟩
  have hcl : gemmaClassify false [] c = .complete c := by
    unfold gemmaClassify
    simp [hne, hbr, hz]
  rw [gemmaLoop, hcl]
  simp only [hfc]
  rw [if_neg (by simp [errUnknown_ne_nil])]

/-- C6 (witness): the payload naming `bogus` yields the unknown-function error
string, invokes nothing, feeds the error back into history and resumes. -/
theorem claim6_witness :
    processFunctionCall (fun _ => []) "\x7b\"name\": \"bogus\"\x7d".toList =
      ⟨errUnknown "bogus".toList, []⟩ ∧
    gemmaLoop (fun _ => []) [] false [] false [] ["\x7b\"name\": \"bogus\"\x7d".toList] =
      ⟨[], resumeOut [] false, [],
        [] ++ callMsgs "\x7b\"name\": \"bogus\"\x7d".toList (errUnknown "bogus".toList),
        true⟩ :=
  claim6_unknown_capability (fun _ => []) [] false [] "\x7b\"name\": \"bogus\"\x7d".toList
    [] "\x7b\"name\": \"bogus\"\x7d".toList [("name".toList, J.str "bogus".toList)]
    "bogus".toList rfl rfl (by decide) rfl rfl rfl (by decide)

/-- C7: if the backend stream fails, the extractor yields exactly one fixed
apologetic fallback fragment after whatever was already yielded, and the
stream ends there with no retry: a failure of the primary stream with no
resume issued appends a single fallback and leaves `resumed = false` (no
follow-up request), and a failure of the resumed stream appends a single
fallback after the forwarded resume fragments. -/
theorem claim7_backend_failure_single_fallback (doc : J → List Char)
    (frags resume : List (List Char)) (hist : List ChatMsg) :
    ((gemmaLoop doc resume false hist false [] frags).resumed = false →
      (processGemmaChat doc frags true resume false hist).output =
        (gemmaLoop doc resume false hist false [] frags).outPre ++ [fallbackMsg] ∧
      (processGemmaChat doc frags true resume false hist).resumed = false) ∧
    ((gemmaLoop doc resume true hist false [] frags).resumed = true →
      (processGemmaChat doc frags false resume true hist).output =
        (gemmaLoop doc resume true hist false [] frags).outPre ++
          (resume.filter (fun f => !f.isEmpty) ++ [fallbackMsg])) := by
  constructor
  · intro h
    have hpost := gemmaLoop_outPost_eq doc resume false frags hist false []
    rw [h] at hpost
    simp only [if_false, Bool.false_eq_true] at hpost
    constructor
    · unfold GOut.output processGemmaChat
      simp [h, hpost]
    · rw [processGemmaChat_resumed]
      exact h
  · intro h
    have hpost := gemmaLoop_outPost_eq doc resume true frags hist false []
    rw [h, if_pos rfl] at hpost
    unfold GOut.output processGemmaChat
    simp [h, hpost, resumeOut]

/-- C7 (witness): a one-fragment stream followed by a backend failure yields
the fragment and then exactly the fallback, without a resume request. -/
theorem claim7_witness :
    (processGemmaChat (fun _ => []) ["hi".toList] true [] false []).output =
      (gemmaLoop (fun _ => []) [] false [] false [] ["hi".toList]).outPre ++ [fallbackMsg] ∧
    (processGemmaChat (fun _ => []) ["hi".toList] true [] false []).resumed = false :=
  (claim7_backend_failure_single_fallback (fun _ => []) ["hi".toList] [] []).1 (by decide)

/-- C8: the caller's conversation history is only ever extended: either no
call resolved and the history is returned unchanged with no resume, or
exactly the two synthetic messages (the stripped raw call and the
`Function result: ...` record) are appended after the call resolved with a
nonempty result, and the extractor resumed.  No pre-existing entry is
modified, and nothing is appended while fragments are merely being
buffered. -/
theorem claim8_history_append_only (doc : J → List Char) (frags : List (List Char))
    (errP : Bool) (resume : List (List Char)) (errR : Bool) (hist : List ChatMsg) :
    ((processGemmaChat doc frags errP resume errR hist).hist = hist ∧
      (processGemmaChat doc frags errP resume errR hist).resumed = false) ∨
    (∃ B res, res.isEmpty = false ∧
      (processGemmaChat doc frags errP resume errR hist).hist = hist ++ callMsgs B res ∧
      (processGemmaChat doc frags errP resume errR hist).resumed = true) := by
  rw [processGemmaChat_hist, processGemmaChat_resumed]
  exact gemmaLoop_hist_ext doc resume errR frags hist false []

/-- C9: when the chat context is serialized for the Ollama backend, every
message other than the most recent one is serialized with no `images` field
(`images = []`) while its text content is kept (the plain string, or the text
parts joined by spaces); consequently a serialized message carrying images can
only be the most recent one. -/
theorem claim9_images_only_last (b64 : List Char → List Char) (ctx : List CtxMsg) (j : Nat) :
    (j + 1 < ctx.length →
      (ollamaMessages b64 ctx).getD j defOllamaMsg =
        ⟨pyRoleOllama ((ctx.getD j defCtxMsg).role), textOnly (ctx.getD j defCtxMsg), []⟩) ∧
    (((ollamaMessages b64 ctx).getD j defOllamaMsg).images ≠ [] → j = ctx.length - 1) := by
  have key : ∀ hj : j + 1 < ctx.length,
      (ollamaMessages b64 ctx).getD j defOllamaMsg =
        ⟨pyRoleOllama ((ctx.getD j defCtxMsg).role), textOnly (ctx.getD j defCtxMsg), []⟩ := by
    intro hj
    rw [ollamaMessages, ollamaMsgsAux_getD b64 (ctx.length - 1) ctx 0 j (by omega)]
    have hfalse : ((0 + j : Nat) == ctx.length - 1) = false := by
      simp only [Nat.zero_add, beq_eq_false_iff_ne]
      omega
    rw [hfalse, serializeOllamaMsg_notLast]
  refine ⟨key, ?_⟩
  intro himg
  by_contra hne
  by_cases hj : j < ctx.length
  · have hjlt : j + 1 < ctx.length := by omega
    rw [key hjlt] at himg
    exact himg rfl
  · have : (ollamaMessages b64 ctx).getD j defOllamaMsg = defOllamaMsg := by
      apply List.getD_eq_default
      have hlen : (ollamaMessages b64 ctx).length = ctx.length := by
        rw [ollamaMessages]
        clear himg hne hj key
        generalize 0 = i
        generalize ctx.length - 1 = last
        induction ctx generalizing i with
        | nil => rfl
        | cons m ms ih => simp [ollamaMsgsAux, ih]
      omega
    rw [this] at himg
    exact himg rfl

/-- C9 (witness): in a two-message context whose older message carries an
image part, the serialized older message keeps its text but has no images. -/
theorem claim9_witness :
    (ollamaMessages (fun x => x)
        [⟨"user".toList, .parts [.text "hi".toList, .image "data:image/x,AAA".toList]⟩,
         ⟨"user".toList, .str "now".toList⟩]).getD 0 defOllamaMsg =
      ⟨pyRoleOllama (((([⟨"user".toList, .parts [.text "hi".toList, .image "data:image/x,AAA".toList]⟩,
         ⟨"user".toList, .str "now".toList⟩] : List CtxMsg)).getD 0 defCtxMsg).role),
       textOnly ((([⟨"user".toList, .parts [.text "hi".toList, .image "data:image/x,AAA".toList]⟩,
         ⟨"user".toList, .str "now".toList⟩] : List CtxMsg)).getD 0 defCtxMsg), []⟩ :=
  (claim9_images_only_last (fun x => x)
    [⟨"user".toList, .parts [.text "hi".toList, .image "data:image/x,AAA".toList]⟩,
     ⟨"user".toList, .str "now".toList⟩] 0).1 (by decide)

/-- C10: `normalize_collection_name` is idempotent, and its output is
well-formed: only lowercase ASCII letters, digits and underscores, with no
leading underscore, no trailing underscore, and no two consecutive
underscores. -/
theorem claim10_normalize_idempotent_wellformed (s : List Char) :
    normalize_collection_name (normalize_collection_name s) = normalize_collection_name s ∧
    collectionNameWellFormed (normalize_collection_name s) = true := by
  obtain ⟨hall, hnd, hh, hl⟩ := normalize_props s
  refine ⟨normalize_idem_aux s, ?_⟩
  have h3 : ((normalize_collection_name s).head? == some '_') = false :=
    beq_eq_false_iff_ne.mpr hh
  have h4 : ((normalize_collection_name s).getLast? == some '_') = false :=
    beq_eq_false_iff_ne.mpr hl
  unfold collectionNameWellFormed
  rw [hall, hnd, h3, h4]
  rfl
